import Mathlib

/-!
Verification of the line-based text normalizer in
scripts/clean_aesop_fables.py.

Strings are modelled as lists of characters, and the Python string
predicates (strip, rstrip, isupper, isalpha, startswith) are modelled at
the ASCII level, matching the behaviour of CPython on ASCII text:
a character is whitespace when it is one of space, tab, newline,
carriage return, vertical tab, form feed, or the ASCII file/group/
record/unit separators; a character is alphabetic when it is an ASCII
letter; an ASCII string is "isupper" when it has at least one letter
and no lowercase letter.

The script reads a file into a list of raw lines (readLines), runs a
single forward pass (step, folded by clean_fables_lines), joins the
cleaned lines with newlines, strips the whole text, appends one newline
(normalizeText) and overwrites the file (clean_fables, modelled on a
map from paths to optional file contents).
-/

/-- Whitespace test matching Python str.isspace on ASCII characters. -/
def pyIsSpace (c : Char) : Bool :=
  c = ' ' || c = '\t' || c = '\n' || c = '\x0d' || c = '\x0b' || c = '\x0c' ||
  c = '\x1c' || c = '\x1d' || c = '\x1e' || c = '\x1f'

/-- Remove the longest run of characters satisfying p from the left. -/
def lstrip (p : Char → Bool) (s : List Char) : List Char :=
  s.dropWhile p

/-- Remove the longest run of characters satisfying p from the right. -/
def rstrip (p : Char → Bool) (s : List Char) : List Char :=
  (s.reverse.dropWhile p).reverse

/-- Python str.strip with no argument: drop whitespace at both ends. -/
def pyStrip (s : List Char) : List Char :=
  lstrip pyIsSpace (rstrip pyIsSpace s)

/-- Python line.rstrip with the one-character set containing newline. -/
def rstripNewline (s : List Char) : List Char :=
  rstrip (fun c => c = '\n') s

/-- Python str.isupper on an ASCII string: at least one cased character
and every cased character uppercase; on ASCII the cased characters are
exactly the letters. -/
def pyIsUpperStr (s : List Char) : Bool :=
  s.any (fun c => c.isAlpha) && s.all (fun c => !c.isAlpha || c.isUpper)

/-- Title test of the script: strip the line, then require isupper and
at least one alphabetic character. -/
def is_title_line (line : List Char) : Bool :=
  pyIsUpperStr (pyStrip line) && (pyStrip line).any (fun c => c.isAlpha)

/-- Python stripped.startswith a space or startswith a tab. -/
def startsWithSpaceTab (s : List Char) : Bool :=
  match s with
  | [] => false
  | c :: _ => c = ' ' || c = '\t'

/-- The three-character delimiter token inserted before every title. -/
def delim : List Char := ['#', '#', '#']

/-- The previous_line_type variable of the script; None is modelled by
Option.none around this type. -/
inductive PrevType where
  | title
  | text
  | empty
deriving DecidableEq, Repr

/-- One iteration of the loop body of clean_fables: classify a raw line
and update the pair of previous_line_type and cleaned_lines. -/
def step (st : Option PrevType × List (List Char)) (line : List Char) :
    Option PrevType × List (List Char) :=
  let stripped := rstripNewline line
  if startsWithSpaceTab stripped then st
  else if is_title_line stripped then
    let acc := if st.2 = [] ∨ st.2.getLast? ≠ some delim then st.2 ++ [delim] else st.2
    (some PrevType.title, acc ++ [stripped])
  else if pyStrip stripped = [] then
    if (st.1 = some PrevType.title ∨ st.1 = some PrevType.text) ∧
        (st.2 = [] ∨ st.2.getLast? ≠ some ([] : List Char)) then
      (some PrevType.empty, st.2 ++ [([] : List Char)])
    else (some PrevType.empty, st.2)
  else (some PrevType.text, st.2 ++ [stripped])

/-- The cleaned_lines list produced by the loop of clean_fables from the
raw lines of the file. -/
def clean_fables_lines (lines : List (List Char)) : List (List Char) :=
  (lines.foldl step (none, [])).2

/-- Python newline.join of a list of lines. -/
def joinNL : List (List Char) → List Char
  | [] => []
  | [l] => l
  | l :: ls => l ++ '\n' :: joinNL ls

/-- Split a text at newline characters; a text with n newline characters
yields n plus one pieces, none of which contains a newline. -/
def splitLines : List Char → List (List Char)
  | [] => [[]]
  | c :: rest =>
    if c = '\n' then [] :: splitLines rest
    else
      match splitLines rest with
      | [] => [[c]]
      | l :: ls => (c :: l) :: ls

/-- Python file.readlines: split after every newline, keeping the
newline at the end of each piece and dropping a trailing empty piece. -/
def readLines : List Char → List (List Char)
  | [] => []
  | c :: rest =>
    if c = '\n' then ['\n'] :: readLines rest
    else
      match readLines rest with
      | [] => [[c]]
      | l :: ls => (c :: l) :: ls

/-- The text written back by clean_fables: join the cleaned lines with
newlines, strip the whole result, and append exactly one newline. -/
def normalizeText (t : List Char) : List Char :=
  pyStrip (joinNL (clean_fables_lines (readLines t))) ++ ['\n']

/-- The line sequence of the written output: the written text with its
single final newline removed, split at newline characters. -/
def outputLines (t : List Char) : List (List Char) :=
  splitLines (pyStrip (joinNL (clean_fables_lines (readLines t))))

/-- The whole clean_fables operation over a model of the file system as
a map from paths to optional file contents: a missing path raises the
file-not-found error and leaves the file system unchanged; otherwise the
file is overwritten in place with the normalized text. -/
def clean_fables (fs : String → Option (List Char)) (path : String) :
    Except String Unit × (String → Option (List Char)) :=
  match fs path with
  | none => (Except.error ("Input file not found at " ++ path), fs)
  | some t => (Except.ok (), fun p => if p = path then some (normalizeText t) else fs p)

/-- The last line of a text: the characters after the last newline. -/
def lastLine (s : List Char) : List Char :=
  (s.reverse.takeWhile (fun c => !(c = '\n' : Bool))).reverse

/-- Checker for the trailing-newline contract: the text ends with a
newline, and before that newline there is either nothing at all or a
final line containing a non-whitespace character (hence not blank, and
not a second newline). -/
def trailingOk (w : List Char) : Bool :=
  match w.getLast? with
  | some c => (c = '\n' : Bool) && (w.dropLast.isEmpty || (lastLine w.dropLast).any (fun d => !pyIsSpace d))
  | none => false

/-- Checker that a text neither starts nor ends with whitespace. -/
def strippedClean (s : List Char) : Bool :=
  (match s.head? with
   | none => true
   | some c => !pyIsSpace c) &&
  (match s.getLast? with
   | none => true
   | some c => !pyIsSpace c)

/-- Boolean check of a condition on every adjacent pair of lines. -/
def pairwiseOkB (f : List Char → List Char → Bool) : List (List Char) → Bool
  | a :: b :: rest => f a b && pairwiseOkB f (b :: rest)
  | _ => true

/-! Basic facts about the one-sided strip operations. -/

theorem lstrip_head_not (p : Char → Bool) (s : List Char) :
    ∀ c, (lstrip p s).head? = some c → p c = false := by
  induction s with
  | nil => intro c h; simp [lstrip] at h
  | cons a t ih =>
    intro c h
    rw [lstrip, List.dropWhile_cons] at h
    by_cases ha : p a = true
    · simp [ha] at h; exact ih c h
    · simp [ha] at h
      subst h
      simpa using ha

theorem lstrip_append (p : Char → Bool) (a b : List Char)
    (h : ∃ c ∈ a, p c = false) : lstrip p (a ++ b) = lstrip p a ++ b := by
  induction a with
  | nil => obtain ⟨c, hc, _⟩ := h; simp at hc
  | cons x t ih =>
    by_cases hx : p x = true
    · have h' : ∃ c ∈ t, p c = false := by
        obtain ⟨c, hc, hpc⟩ := h
        rcases List.mem_cons.mp hc with rfl | hct
        · exact absurd hx (by simp [hpc])
        · exact ⟨c, hct, hpc⟩
      simp only [List.cons_append, lstrip, List.dropWhile_cons, hx, if_pos]
      exact ih h'
    · simp only [List.cons_append, lstrip, List.dropWhile_cons, hx]
      simp

theorem lstrip_eq_nil_iff (p : Char → Bool) (s : List Char) :
    lstrip p s = [] ↔ ∀ c ∈ s, p c = true := List.dropWhile_eq_nil_iff

theorem lstrip_idem (p : Char → Bool) (s : List Char) :
    lstrip p (lstrip p s) = lstrip p s := by
  cases h : lstrip p s with
  | nil => simp [lstrip]
  | cons c t =>
    have hc : p c = false := lstrip_head_not p s c (by rw [h]; rfl)
    rw [lstrip, List.dropWhile_cons, hc]
    simp

theorem lstrip_decomp (p : Char → Bool) (s : List Char) :
    ∃ w, s = w ++ lstrip p s ∧ ∀ c ∈ w, p c = true :=
  ⟨s.takeWhile p, (List.takeWhile_append_dropWhile p s).symm,
   fun _ hc => List.mem_takeWhile_imp hc⟩

theorem mem_of_mem_lstrip (p : Char → Bool) (s : List Char) {c : Char}
    (h : c ∈ lstrip p s) : c ∈ s := by
  obtain ⟨w, hw, _⟩ := lstrip_decomp p s
  rw [hw]; exact List.mem_append_right w h

theorem dropWhile_all (p : Char → Bool) (a b : List Char)
    (h : ∀ c ∈ a, p c = true) : List.dropWhile p (a ++ b) = List.dropWhile p b := by
  induction a with
  | nil => rfl
  | cons x t ih =>
    have hx := h x (by simp)
    simp only [List.cons_append, List.dropWhile_cons, hx, if_pos]
    exact ih (fun c hc => h c (List.mem_cons_of_mem x hc))

theorem dropWhile_dropWhile_of_imp (p q : Char → Bool)
    (h : ∀ c, q c = true → p c = true) (s : List Char) :
    List.dropWhile p (List.dropWhile q s) = List.dropWhile p s := by
  induction s with
  | nil => rfl
  | cons x t ih =>
    by_cases hx : q x = true
    · rw [List.dropWhile_cons, if_pos hx, ih, List.dropWhile_cons, if_pos (h x hx)]
    · rw [List.dropWhile_cons, if_neg hx]

theorem rstrip_eq_nil_iff (p : Char → Bool) (s : List Char) :
    rstrip p s = [] ↔ ∀ c ∈ s, p c = true := by
  rw [rstrip, List.reverse_eq_nil_iff, List.dropWhile_eq_nil_iff]
  constructor
  · intro h c hc; exact h c (List.mem_reverse.mpr hc)
  · intro h c hc; exact h c (List.mem_reverse.mp hc)

theorem rstrip_getLast_not (p : Char → Bool) (s : List Char) :
    ∀ c, (rstrip p s).getLast? = some c → p c = false := by
  intro c h
  rw [List.getLast?_eq_head?_reverse, rstrip, List.reverse_reverse] at h
  exact lstrip_head_not p s.reverse c h

theorem rstrip_append (p : Char → Bool) (a b : List Char)
    (h : ∃ c ∈ b, p c = false) : rstrip p (a ++ b) = a ++ rstrip p b := by
  have h' : ∃ c ∈ b.reverse, p c = false := by
    obtain ⟨c, hc, hpc⟩ := h; exact ⟨c, List.mem_reverse.mpr hc, hpc⟩
  have key : lstrip p (b.reverse ++ a.reverse) = lstrip p b.reverse ++ a.reverse :=
    lstrip_append p _ _ h'
  rw [rstrip, List.reverse_append]
  show (lstrip p (b.reverse ++ a.reverse)).reverse = _
  rw [key, List.reverse_append, List.reverse_reverse]
  rfl

theorem rstrip_append_one (p : Char → Bool) (a : List Char) {c : Char}
    (h : p c = true) : rstrip p (a ++ [c]) = rstrip p a := by
  rw [rstrip, List.reverse_append]
  show (List.dropWhile p ([c] ++ a.reverse)).reverse = _
  rw [dropWhile_all p [c] a.reverse (by intro d hd; simp at hd; subst hd; exact h)]
  rfl

theorem rstrip_idem (p : Char → Bool) (s : List Char) :
    rstrip p (rstrip p s) = rstrip p s := by
  show (lstrip p (rstrip p s).reverse).reverse = rstrip p s
  have hrev : (rstrip p s).reverse = lstrip p s.reverse := by
    rw [rstrip]; exact List.reverse_reverse _
  rw [hrev, lstrip_idem]
  rfl

theorem rstrip_decomp (p : Char → Bool) (s : List Char) :
    ∃ w, s = rstrip p s ++ w ∧ ∀ c ∈ w, p c = true := by
  obtain ⟨w, hw, hall⟩ := lstrip_decomp p s.reverse
  refine ⟨w.reverse, ?_, fun c hc => hall c (List.mem_reverse.mp hc)⟩
  have hs : s = (w ++ lstrip p s.reverse).reverse := by
    rw [← hw, List.reverse_reverse]
  conv_lhs => rw [hs]
  rw [List.reverse_append]
  rfl

theorem mem_of_mem_rstrip (p : Char → Bool) (s : List Char) {c : Char}
    (h : c ∈ rstrip p s) : c ∈ s := by
  obtain ⟨w, hw, _⟩ := rstrip_decomp p s
  rw [hw]; exact List.mem_append_left w h

theorem rstrip_rstrip_of_imp (p q : Char → Bool)
    (h : ∀ c, q c = true → p c = true) (s : List Char) :
    rstrip p (rstrip q s) = rstrip p s := by
  rw [rstrip, rstrip, rstrip, List.reverse_reverse, dropWhile_dropWhile_of_imp p q h]

theorem rstrip_keeps_not (p : Char → Bool) (s : List Char)
    (h : ∃ c ∈ s, p c = false) : ∃ c ∈ rstrip p s, p c = false := by
  obtain ⟨w, hw, hall⟩ := rstrip_decomp p s
  obtain ⟨c, hc, hpc⟩ := h
  rw [hw] at hc
  rcases List.mem_append.mp hc with h1 | h2
  · exact ⟨c, h1, hpc⟩
  · exact absurd (hall c h2) (by simp [hpc])

theorem rstrip_head? (p : Char → Bool) (s : List Char) {c : Char}
    (h : s.head? = some c) : rstrip p s = [] ∨ (rstrip p s).head? = some c := by
  obtain ⟨w, hw, _⟩ := rstrip_decomp p s
  cases hr : rstrip p s with
  | nil => exact Or.inl rfl
  | cons x t =>
    right
    rw [hw, hr] at h
    simp at h
    simp [h]

/-! Facts about pyStrip, the title test, and the indentation test. -/

theorem getLast?_append_right {α : Type} (a b : List α) (h : b ≠ []) :
    (a ++ b).getLast? = b.getLast? := by
  rw [List.getLast?_append]
  cases hb : b.getLast? with
  | none => exact absurd (List.getLast?_eq_none_iff.mp hb) h
  | some x => rfl

theorem lstrip_getLast? (p : Char → Bool) (s : List Char) (h : lstrip p s ≠ []) :
    (lstrip p s).getLast? = s.getLast? := by
  obtain ⟨w, hw, _⟩ := lstrip_decomp p s
  conv_rhs => rw [hw]
  rw [getLast?_append_right _ _ h]

theorem lstrip_append_all (p : Char → Bool) (w u : List Char)
    (h : ∀ c ∈ w, p c = true) : lstrip p (w ++ u) = lstrip p u :=
  dropWhile_all p w u h

theorem rstrip_append_all (p : Char → Bool) (u w : List Char)
    (h : ∀ c ∈ w, p c = true) : rstrip p (u ++ w) = rstrip p u := by
  show (lstrip p (u ++ w).reverse).reverse = _
  rw [List.reverse_append]
  rw [show lstrip p (w.reverse ++ u.reverse) = lstrip p u.reverse from
    dropWhile_all p _ _ (fun c hc => h c (List.mem_reverse.mp hc))]
  rfl

theorem pyStrip_eq_nil_iff (s : List Char) :
    pyStrip s = [] ↔ ∀ c ∈ s, pyIsSpace c = true := by
  constructor
  · intro h c hc
    by_contra hne
    have hf : pyIsSpace c = false := by simpa using hne
    obtain ⟨w, hw, hall⟩ := rstrip_decomp pyIsSpace s
    rw [hw] at hc
    rcases List.mem_append.mp hc with h1 | h2
    · have := (lstrip_eq_nil_iff pyIsSpace (rstrip pyIsSpace s)).mp h c h1
      rw [hf] at this; cases this
    · have := hall c h2
      rw [hf] at this; cases this
  · intro h
    have hr : rstrip pyIsSpace s = [] := (rstrip_eq_nil_iff _ _).mpr h
    show lstrip pyIsSpace (rstrip pyIsSpace s) = []
    rw [hr]; rfl

theorem pyStrip_ne_nil (s : List Char) {c : Char} (hc : c ∈ s)
    (hf : pyIsSpace c = false) : pyStrip s ≠ [] := by
  intro h
  have := (pyStrip_eq_nil_iff s).mp h c hc
  rw [hf] at this; cases this

theorem pyStrip_append_ws_right (u w : List Char)
    (h : ∀ c ∈ w, pyIsSpace c = true) : pyStrip (u ++ w) = pyStrip u := by
  show lstrip _ (rstrip _ (u ++ w)) = _
  rw [rstrip_append_all _ _ _ h]
  rfl

theorem pyStrip_append_ws_left (w u : List Char)
    (h : ∀ c ∈ w, pyIsSpace c = true) : pyStrip (w ++ u) = pyStrip u := by
  by_cases hu : ∃ c ∈ u, pyIsSpace c = false
  · show lstrip _ (rstrip _ (w ++ u)) = _
    rw [rstrip_append pyIsSpace w u hu, lstrip_append_all _ _ _ h]
    rfl
  · have hall : ∀ c ∈ u, pyIsSpace c = true := by
      intro c hc
      by_contra hx
      exact hu ⟨c, hc, by simpa using hx⟩
    rw [(pyStrip_eq_nil_iff u).mpr hall]
    refine (pyStrip_eq_nil_iff (w ++ u)).mpr ?_
    intro c hc
    rcases List.mem_append.mp hc with h1 | h2
    · exact h c h1
    · exact hall c h2

theorem pyStrip_lstrip (s : List Char) :
    pyStrip (lstrip pyIsSpace s) = pyStrip s := by
  obtain ⟨w, hw, hall⟩ := lstrip_decomp pyIsSpace s
  conv_rhs => rw [hw]
  rw [pyStrip_append_ws_left w _ hall]

theorem pyStrip_rstrip (s : List Char) :
    pyStrip (rstrip pyIsSpace s) = pyStrip s := by
  obtain ⟨w, hw, hall⟩ := rstrip_decomp pyIsSpace s
  conv_rhs => rw [hw]
  rw [pyStrip_append_ws_right _ w hall]

theorem pyStrip_idem (s : List Char) : pyStrip (pyStrip s) = pyStrip s := by
  show pyStrip (lstrip pyIsSpace (rstrip pyIsSpace s)) = _
  rw [pyStrip_lstrip, pyStrip_rstrip]

theorem pyStrip_rstripNewline (s : List Char) :
    pyStrip (rstripNewline s) = pyStrip s := by
  show lstrip _ (rstrip _ (rstrip (fun c => (c = '\n' : Bool)) s)) = _
  rw [rstrip_rstrip_of_imp pyIsSpace _ ?_ s]
  · rfl
  · intro c hc
    have : c = '\n' := by simpa using hc
    subst this; decide

theorem pyStrip_head_not (s : List Char) :
    ∀ c, (pyStrip s).head? = some c → pyIsSpace c = false :=
  fun c h => lstrip_head_not pyIsSpace (rstrip pyIsSpace s) c h

theorem pyStrip_getLast_not (s : List Char) :
    ∀ c, (pyStrip s).getLast? = some c → pyIsSpace c = false := by
  intro c h
  have hne : lstrip pyIsSpace (rstrip pyIsSpace s) ≠ [] := by
    intro h0
    rw [show pyStrip s = lstrip pyIsSpace (rstrip pyIsSpace s) from rfl, h0] at h
    cases h
  rw [show pyStrip s = lstrip pyIsSpace (rstrip pyIsSpace s) from rfl,
    lstrip_getLast? _ _ hne] at h
  exact rstrip_getLast_not _ _ c h

theorem is_title_congr {a b : List Char} (h : pyStrip a = pyStrip b) :
    is_title_line a = is_title_line b := by
  unfold is_title_line
  rw [h]

theorem is_title_any_alpha {s : List Char} (h : is_title_line s = true) :
    ∃ c ∈ pyStrip s, c.isAlpha = true := by
  unfold is_title_line at h
  have h2 := (Bool.and_eq_true _ _).mp h
  exact List.any_eq_true.mp h2.2

theorem is_title_pyStrip_ne_nil {s : List Char} (h : is_title_line s = true) :
    pyStrip s ≠ [] := by
  obtain ⟨c, hc, _⟩ := is_title_any_alpha h
  intro h0
  rw [h0] at hc
  cases hc

theorem is_title_ne_delim {s : List Char} (h : is_title_line s = true) :
    s ≠ delim := by
  intro he
  rw [he] at h
  exact absurd h (by decide)

theorem pyStrip_ne_delim_of_title {s : List Char} (h : is_title_line s = true) :
    pyStrip s ≠ delim := by
  intro he
  obtain ⟨c, hc, ha⟩ := is_title_any_alpha h
  rw [he] at hc
  have : c = '#' := by simpa [delim] using hc
  subst this
  exact absurd ha (by decide)

theorem sws_lstrip (s : List Char) :
    startsWithSpaceTab (lstrip pyIsSpace s) = false := by
  cases hl : lstrip pyIsSpace s with
  | nil => rfl
  | cons c t =>
    have hc : pyIsSpace c = false := lstrip_head_not _ s c (by rw [hl]; rfl)
    show (decide (c = ' ') || decide (c = '\t')) = false
    have h1 : c ≠ ' ' := by rintro rfl; exact absurd hc (by decide)
    have h2 : c ≠ '\t' := by rintro rfl; exact absurd hc (by decide)
    simp [h1, h2]

theorem sws_rstrip (p : Char → Bool) {s : List Char}
    (h : startsWithSpaceTab s = false) :
    startsWithSpaceTab (rstrip p s) = false := by
  cases hr : rstrip p s with
  | nil => rfl
  | cons x t =>
    cases s with
    | nil => rw [show rstrip p [] = [] from rfl] at hr; cases hr
    | cons a u =>
      rcases rstrip_head? p (a :: u) (c := a) rfl with h0 | h1
      · rw [h0] at hr; cases hr
      · rw [hr] at h1
        simp at h1
        subst h1
        simpa [startsWithSpaceTab] using h

/-! Facts about joining, splitting and reading lines. -/

theorem rstrip_eq_self (p : Char → Bool) (s : List Char)
    (h : ∀ c ∈ s, p c = false) : rstrip p s = s := by
  obtain ⟨w, hw, hall⟩ := rstrip_decomp p s
  cases w with
  | nil => conv_rhs => rw [hw, List.append_nil]
  | cons x xs =>
    have hx := hall x (by simp)
    have hxs : x ∈ s := by rw [hw]; exact List.mem_append_right _ (by simp)
    rw [h x hxs] at hx; cases hx

theorem rstripNewline_of_no_newline {m : List Char} (h : '\n' ∉ m) :
    rstripNewline m = m :=
  rstrip_eq_self _ m (fun c hc => by
    have : c ≠ '\n' := fun he => h (he ▸ hc)
    simpa using this)

theorem rstripNewline_append_newline {m : List Char} (h : '\n' ∉ m) :
    rstripNewline (m ++ ['\n']) = m := by
  rw [rstripNewline, rstrip_append_one _ m (by simp), ← rstripNewline,
    rstripNewline_of_no_newline h]

theorem joinNL_cons (l : List Char) (ls : List (List Char)) (h : ls ≠ []) :
    joinNL (l :: ls) = l ++ '\n' :: joinNL ls := by
  cases ls with
  | nil => exact absurd rfl h
  | cons a as => rfl

theorem mem_joinNL {c : Char} {e : List Char} {ls : List (List Char)}
    (he : e ∈ ls) (hc : c ∈ e) : c ∈ joinNL ls := by
  induction ls with
  | nil => simp at he
  | cons l rest ih =>
    rcases List.mem_cons.mp he with rfl | h2
    · cases rest with
      | nil => exact hc
      | cons a as => rw [joinNL_cons _ _ (by simp)]; exact List.mem_append_left _ hc
    · have hne : rest ≠ [] := by intro h0; rw [h0] at h2; simp at h2
      rw [joinNL_cons _ _ hne]
      exact List.mem_append_right _ (List.mem_cons_of_mem _ (ih h2))

theorem splitLines_ne_nil (s : List Char) : splitLines s ≠ [] := by
  cases s with
  | nil => simp [splitLines]
  | cons c rest =>
    by_cases hc : c = '\n'
    · simp [splitLines, hc]
    · simp only [splitLines, if_neg hc]
      cases splitLines rest <;> simp

theorem splitLines_no_newline (s : List Char) :
    ∀ e ∈ splitLines s, '\n' ∉ e := by
  induction s with
  | nil => intro e he; simp [splitLines] at he; simp [he]
  | cons c rest ih =>
    intro e he
    by_cases hc : c = '\n'
    · rw [show splitLines (c :: rest) = [] :: splitLines rest from by
        simp [splitLines, hc]] at he
      rcases List.mem_cons.mp he with rfl | h2
      · simp
      · exact ih e h2
    · cases hr : splitLines rest with
      | nil => exact absurd hr (splitLines_ne_nil rest)
      | cons l ls =>
        rw [show splitLines (c :: rest) = (c :: l) :: ls from by
          simp [splitLines, hc, hr]] at he
        rcases List.mem_cons.mp he with rfl | h2
        · intro hmem
          rcases List.mem_cons.mp hmem with he2 | h3
          · exact hc he2.symm
          · exact ih l (by rw [hr]; simp) h3
        · exact ih e (by rw [hr]; simp [h2])

theorem splitLines_of_no_newline {x : List Char} (h : '\n' ∉ x) :
    splitLines x = [x] := by
  induction x with
  | nil => rfl
  | cons c rest ih =>
    have hc : c ≠ '\n' := fun he => h (by simp [he])
    have hrest : '\n' ∉ rest := fun hm => h (List.mem_cons_of_mem _ hm)
    simp only [splitLines, if_neg hc, ih hrest]

theorem splitLines_append {x : List Char} (s : List Char) (h : '\n' ∉ x) :
    splitLines (x ++ s) =
      (x ++ (splitLines s).headD []) :: (splitLines s).tail := by
  induction x with
  | nil =>
    simp only [List.nil_append]
    cases hr : splitLines s with
    | nil => exact absurd hr (splitLines_ne_nil s)
    | cons l ls => simp
  | cons c rest ih =>
    have hc : c ≠ '\n' := fun he => h (by simp [he])
    have hrest : '\n' ∉ rest := fun hm => h (List.mem_cons_of_mem _ hm)
    have hr := ih hrest
    rw [List.cons_append]
    simp only [splitLines, if_neg hc, hr]
    simp

theorem splitLines_joinNL (ls : List (List Char)) (h : ∀ e ∈ ls, '\n' ∉ e)
    (hne : ls ≠ []) : splitLines (joinNL ls) = ls := by
  induction ls with
  | nil => exact absurd rfl hne
  | cons l rest ih =>
    cases rest with
    | nil => exact splitLines_of_no_newline (h l (by simp))
    | cons a as =>
      rw [joinNL_cons _ _ (by simp)]
      have hl : '\n' ∉ l := h l (by simp)
      rw [splitLines_append ('\n' :: joinNL (a :: as)) hl]
      have hrec : splitLines (joinNL (a :: as)) = a :: as :=
        ih (fun e he => h e (List.mem_cons_of_mem _ he)) (by simp)
      rw [show splitLines ('\n' :: joinNL (a :: as)) = [] :: splitLines (joinNL (a :: as)) from by
        simp [splitLines]]
      rw [hrec]
      simp

theorem joinNL_splitLines (s : List Char) : joinNL (splitLines s) = s := by
  induction s with
  | nil => rfl
  | cons c rest ih =>
    by_cases hc : c = '\n'
    · subst hc
      rw [show splitLines ('\n' :: rest) = [] :: splitLines rest from by simp [splitLines]]
      rw [joinNL_cons _ _ (splitLines_ne_nil rest)]
      rw [ih]
      rfl
    · cases hr : splitLines rest with
      | nil => exact absurd hr (splitLines_ne_nil rest)
      | cons l ls =>
        rw [show splitLines (c :: rest) = (c :: l) :: ls from by simp [splitLines, hc, hr]]
        rw [hr] at ih
        cases ls with
        | nil => show c :: l = c :: rest; rw [show joinNL [l] = l from rfl] at ih; rw [ih]
        | cons b bs =>
          rw [joinNL_cons (c :: l) (b :: bs) (by simp)]
          rw [joinNL_cons l (b :: bs) (by simp)] at ih
          rw [List.cons_append, ih]

theorem readLines_append_newline (s : List Char) :
    readLines (s ++ ['\n']) = (splitLines s).map (fun m => m ++ ['\n']) := by
  induction s with
  | nil => rfl
  | cons c rest ih =>
    by_cases hc : c = '\n'
    · subst hc
      rw [List.cons_append,
        show readLines ('\n' :: (rest ++ ['\n'])) = ['\n'] :: readLines (rest ++ ['\n']) from by
          simp [readLines]]
      rw [ih,
        show splitLines ('\n' :: rest) = [] :: splitLines rest from by simp [splitLines]]
      rfl
    · rw [List.cons_append]
      cases hr : splitLines rest with
      | nil => exact absurd hr (splitLines_ne_nil rest)
      | cons l ls =>
        have hmap : readLines (rest ++ ['\n']) = (l ++ ['\n']) :: ls.map (fun m => m ++ ['\n']) := by
          rw [ih, hr]; rfl
        simp only [readLines, if_neg hc, hmap]
        rw [show splitLines (c :: rest) = (c :: l) :: ls from by simp [splitLines, hc, hr]]
        rfl

theorem readLines_no_newline (t : List Char) :
    ∀ l ∈ readLines t, '\n' ∉ rstripNewline l := by
  induction t with
  | nil => intro l hl; simp [readLines] at hl
  | cons c rest ih =>
    intro l hl
    by_cases hc : c = '\n'
    · subst hc
      rw [show readLines ('\n' :: rest) = ['\n'] :: readLines rest from by simp [readLines]] at hl
      rcases List.mem_cons.mp hl with rfl | h2
      · rw [show rstripNewline ['\n'] = [] from by decide]; simp
      · exact ih l h2
    · cases hr : readLines rest with
      | nil =>
        rw [show readLines (c :: rest) = [[c]] from by simp [readLines, hc, hr]] at hl
        simp at hl
        subst hl
        have hnm : '\n' ∉ [c] := by
          intro hm; simp at hm; exact hc hm.symm
        rw [rstripNewline_of_no_newline hnm]
        exact hnm
      | cons r rs =>
        rw [show readLines (c :: rest) = (c :: r) :: rs from by simp [readLines, hc, hr]] at hl
        rcases List.mem_cons.mp hl with rfl | h2
        · have hrr : '\n' ∉ rstripNewline r := ih r (by rw [hr]; simp)
          by_cases hex : ∃ d ∈ r, (d = '\n' : Bool) = false
          · rw [show (c :: r) = [c] ++ r from rfl, rstripNewline,
              rstrip_append _ [c] r hex]
            intro hmem
            rcases List.mem_cons.mp (by simpa using hmem) with he2 | h3
            · exact hc he2.symm
            · exact hrr h3
          · have hall : ∀ d ∈ r, (d = '\n' : Bool) = true := by
              intro d hd
              by_contra hx
              exact hex ⟨d, hd, by simpa using hx⟩
            rw [show (c :: r) = [c] ++ r from rfl, rstripNewline,
              rstrip_append_all _ [c] r hall,
              rstrip_eq_self _ [c] (by intro d hd; simp at hd; simp [hd, hc])]
            intro hm; simp at hm; exact hc hm.symm
        · exact ih l (by rw [hr]; simp [h2])

/-! The structural invariant of the cleaned line sequence: no entry is
indented or contains a newline, a title entry is always preceded by the
delimiter entry, and a blank entry is the empty string and follows an
entry that re-classifies as a title or body line. The first parameter
is the entry preceding the sequence, when there is one. -/

def G : Option (List Char) → List (List Char) → Prop
  | _, [] => True
  | l, e :: rest =>
    startsWithSpaceTab e = false ∧ '\n' ∉ e ∧
    (is_title_line e = true → l = some delim) ∧
    (pyStrip e = [] → e = [] ∧ ∃ q, l = some q ∧ q ≠ [] ∧ pyStrip q ≠ []) ∧
    G (some e) rest

/-- The entry preceding a would-be appended element: the last entry of
the accumulated list when nonempty, and the outer predecessor otherwise. -/
def prevOf (l : Option (List Char)) (xs : List (List Char)) : Option (List Char) :=
  match xs.getLast? with
  | some e => some e
  | none => l

theorem bool_eq_false {b : Bool} (h : ¬b = true) : b = false := by
  cases b
  · rfl
  · exact absurd rfl h

theorem ne_nil_of_pyStrip {s : List Char} (h : pyStrip s ≠ []) : s ≠ [] :=
  fun h0 => h (by rw [h0]; rfl)

theorem prevOf_nil (l : Option (List Char)) : prevOf l [] = l := rfl

theorem prevOf_append_one (l : Option (List Char)) (xs : List (List Char))
    (x : List Char) : prevOf l (xs ++ [x]) = some x := by
  simp [prevOf, List.getLast?_concat]

theorem prevOf_cons (l : Option (List Char)) (a : List Char)
    (as : List (List Char)) : prevOf l (a :: as) = prevOf (some a) as := by
  cases as with
  | nil => rfl
  | cons b bs =>
    cases h : (b :: bs).getLast? with
    | none => exact absurd (List.getLast?_eq_none_iff.mp h) (by simp)
    | some e => simp [prevOf, List.getLast?_cons_cons, h]

theorem prevOf_of_getLast? {l : Option (List Char)} {xs : List (List Char)}
    {e : List Char} (h : xs.getLast? = some e) : prevOf l xs = some e := by
  simp [prevOf, h]

theorem G_snoc (l : Option (List Char)) (xs : List (List Char)) (x : List Char) :
    G l (xs ++ [x]) ↔
      G l xs ∧ startsWithSpaceTab x = false ∧ '\n' ∉ x ∧
        (is_title_line x = true → prevOf l xs = some delim) ∧
        (pyStrip x = [] →
          x = [] ∧ ∃ q, prevOf l xs = some q ∧ q ≠ [] ∧ pyStrip q ≠ []) := by
  induction xs generalizing l with
  | nil => simp [G, prevOf_nil]
  | cons a as ih =>
    constructor
    · intro h
      obtain ⟨h1, h2, h3, h4, h5⟩ := h
      obtain ⟨hG, hx⟩ := (ih (some a)).mp h5
      rw [prevOf_cons]
      exact ⟨⟨h1, h2, h3, h4, hG⟩, hx⟩
    · rintro ⟨⟨h1, h2, h3, h4, hG⟩, hx⟩
      rw [prevOf_cons] at hx
      exact ⟨h1, h2, h3, h4, (ih (some a)).mpr ⟨hG, hx⟩⟩

theorem G_mem {l : Option (List Char)} {ms : List (List Char)} (hG : G l ms) :
    ∀ e ∈ ms, startsWithSpaceTab e = false ∧ '\n' ∉ e ∧ (pyStrip e = [] → e = []) := by
  induction ms generalizing l with
  | nil => intro e he; simp at he
  | cons a rest ih =>
    intro e he
    obtain ⟨h1, h2, _, h4, h5⟩ := hG
    rcases List.mem_cons.mp he with rfl | h6
    · exact ⟨h1, h2, fun hp => (h4 hp).1⟩
    · exact ih h5 e h6

theorem G_tail_congr {a b : List Char} {rest : List (List Char)}
    (hG : G (some a) rest) (hd : a = delim → b = delim)
    (hne : a ≠ [] → pyStrip a ≠ [] → b ≠ [] ∧ pyStrip b ≠ []) :
    G (some b) rest := by
  cases rest with
  | nil => trivial
  | cons e r =>
    obtain ⟨h1, h2, h3, h4, h5⟩ := hG
    refine ⟨h1, h2, ?_, ?_, h5⟩
    · intro ht
      have hh := h3 ht
      injection hh with hh'
      rw [hd hh']
    · intro hp
      obtain ⟨he, q, hq, hq1, hq2⟩ := h4 hp
      injection hq with hq'
      subst hq'
      obtain ⟨hb1, hb2⟩ := hne hq1 hq2
      exact ⟨he, b, rfl, hb1, hb2⟩

theorem G_of_append {l : Option (List Char)} (xs ys : List (List Char))
    (h : G l (xs ++ ys)) : G l xs := by
  induction xs generalizing l with
  | nil => trivial
  | cons a as ih =>
    obtain ⟨h1, h2, h3, h4, h5⟩ := h
    exact ⟨h1, h2, h3, h4, ih h5⟩

/-- Replace the first element of a list of lines. -/
def mapFirst (f : List Char → List Char) : List (List Char) → List (List Char)
  | [] => []
  | a :: as => f a :: as

/-- Replace the last element of a list of lines. -/
def mapLast (f : List Char → List Char) : List (List Char) → List (List Char)
  | [] => []
  | [a] => [f a]
  | a :: as => a :: mapLast f as

theorem mapLast_cons (f : List Char → List Char) (a : List Char)
    (as : List (List Char)) (h : as ≠ []) :
    mapLast f (a :: as) = a :: mapLast f as := by
  cases as with
  | nil => exact absurd rfl h
  | cons b bs => rfl

theorem mapLast_snoc (f : List Char → List Char) (xs : List (List Char))
    (x : List Char) : mapLast f (xs ++ [x]) = xs ++ [f x] := by
  induction xs with
  | nil => rfl
  | cons a as ih =>
    rw [List.cons_append, mapLast_cons f a (as ++ [x]) (by simp), ih]
    rfl

theorem G_mapLast {l : Option (List Char)} {ms : List (List Char)}
    (hG : G l ms) : G l (mapLast (rstrip pyIsSpace) ms) := by
  induction ms generalizing l with
  | nil => trivial
  | cons a as ih =>
    cases as with
    | nil =>
      obtain ⟨h1, h2, h3, h4, _⟩ := hG
      show G l [rstrip pyIsSpace a]
      refine ⟨sws_rstrip _ h1, ?_, ?_, ?_, trivial⟩
      · intro hm; exact h2 (mem_of_mem_rstrip _ _ hm)
      · intro ht
        rw [is_title_congr (pyStrip_rstrip a)] at ht
        exact h3 ht
      · intro hp
        rw [pyStrip_rstrip a] at hp
        obtain ⟨ha, hrest⟩ := h4 hp
        subst ha
        exact ⟨rfl, hrest⟩
    | cons b bs =>
      rw [mapLast_cons _ _ _ (by simp)]
      obtain ⟨h1, h2, h3, h4, h5⟩ := hG
      exact ⟨h1, h2, h3, h4, ih h5⟩

theorem G_mapFirst {ms : List (List Char)} (hG : G none ms) :
    G none (mapFirst (lstrip pyIsSpace) ms) := by
  cases ms with
  | nil => trivial
  | cons a as =>
    obtain ⟨h1, h2, h3, h4, h5⟩ := hG
    show G none (lstrip pyIsSpace a :: as)
    refine ⟨sws_lstrip a, ?_, ?_, ?_, ?_⟩
    · intro hm; exact h2 (mem_of_mem_lstrip _ _ hm)
    · intro ht
      rw [is_title_congr (pyStrip_lstrip a)] at ht
      exact h3 ht
    · intro hp
      rw [pyStrip_lstrip a] at hp
      obtain ⟨_, q, hq, _, _⟩ := h4 hp
      cases hq
    · refine G_tail_congr h5 ?_ ?_
      · intro hd; rw [hd]; decide
      · intro _ h02
        constructor
        · intro h0
          apply h02
          rw [← pyStrip_lstrip a, h0]
          rfl
        · intro h0
          apply h02
          rw [← pyStrip_lstrip a]
          exact h0

/-- The relationship between the previous_line_type state and the last
entry of cleaned_lines needed to justify appending a blank separator. -/
def Side (st : Option PrevType) (acc : List (List Char)) : Prop :=
  st = some PrevType.title ∨ st = some PrevType.text →
    ∃ e, acc.getLast? = some e ∧ e ≠ [] ∧ pyStrip e ≠ []

/-! Equations describing the five possible outcomes of one loop iteration. -/

theorem step_skip {st : Option PrevType} {acc : List (List Char)} {line : List Char}
    (h : startsWithSpaceTab (rstripNewline line) = true) :
    step (st, acc) line = (st, acc) := by
  unfold step
  simp [h]

theorem step_title_append {st : Option PrevType} {acc : List (List Char)} {line : List Char}
    (h1 : startsWithSpaceTab (rstripNewline line) = false)
    (h2 : is_title_line (rstripNewline line) = true)
    (h3 : acc = [] ∨ acc.getLast? ≠ some delim) :
    step (st, acc) line = (some PrevType.title, acc ++ [delim] ++ [rstripNewline line]) := by
  unfold step
  simp [h1, h2, h3]

theorem step_title_keep {st : Option PrevType} {acc : List (List Char)} {line : List Char}
    (h1 : startsWithSpaceTab (rstripNewline line) = false)
    (h2 : is_title_line (rstripNewline line) = true)
    (h3 : acc.getLast? = some delim) :
    step (st, acc) line = (some PrevType.title, acc ++ [rstripNewline line]) := by
  have hnot : ¬(acc = [] ∨ acc.getLast? ≠ some delim) := by
    push_neg
    refine ⟨?_, h3⟩
    intro h0
    rw [h0] at h3
    cases h3
  unfold step
  simp [h1, h2, hnot]

theorem step_blank_append {st : Option PrevType} {acc : List (List Char)} {line : List Char}
    (h1 : startsWithSpaceTab (rstripNewline line) = false)
    (h2 : is_title_line (rstripNewline line) = false)
    (h3 : pyStrip (rstripNewline line) = [])
    (h4 : st = some PrevType.title ∨ st = some PrevType.text)
    (h5 : acc = [] ∨ acc.getLast? ≠ some ([] : List Char)) :
    step (st, acc) line = (some PrevType.empty, acc ++ [([] : List Char)]) := by
  unfold step
  simp [h1, h2, h3, h4, h5]

theorem step_blank_skip {st : Option PrevType} {acc : List (List Char)} {line : List Char}
    (h1 : startsWithSpaceTab (rstripNewline line) = false)
    (h2 : is_title_line (rstripNewline line) = false)
    (h3 : pyStrip (rstripNewline line) = [])
    (h4 : ¬((st = some PrevType.title ∨ st = some PrevType.text) ∧
      (acc = [] ∨ acc.getLast? ≠ some ([] : List Char)))) :
    step (st, acc) line = (some PrevType.empty, acc) := by
  unfold step
  simp only [h1, h2, h3]
  simp [h4]

theorem step_body {st : Option PrevType} {acc : List (List Char)} {line : List Char}
    (h1 : startsWithSpaceTab (rstripNewline line) = false)
    (h2 : is_title_line (rstripNewline line) = false)
    (h3 : pyStrip (rstripNewline line) ≠ []) :
    step (st, acc) line = (some PrevType.text, acc ++ [rstripNewline line]) := by
  unfold step
  simp [h1, h2, h3]

/-! One loop iteration preserves the structural invariant. -/

theorem step_preserves (st : Option PrevType) (acc : List (List Char)) (line : List Char)
    (hnl : '\n' ∉ rstripNewline line) (hG : G none acc) (hS : Side st acc) :
    G none (step (st, acc) line).2 ∧ Side (step (st, acc) line).1 (step (st, acc) line).2 := by
  by_cases h1 : startsWithSpaceTab (rstripNewline line) = true
  · rw [step_skip h1]
    exact ⟨hG, hS⟩
  have h1' : startsWithSpaceTab (rstripNewline line) = false := bool_eq_false h1
  by_cases h2 : is_title_line (rstripNewline line) = true
  · have hpn : pyStrip (rstripNewline line) ≠ [] := is_title_pyStrip_ne_nil h2
    have hen : rstripNewline line ≠ [] := ne_nil_of_pyStrip hpn
    by_cases h3 : acc = [] ∨ acc.getLast? ≠ some delim
    · rw [step_title_append h1' h2 h3]
      constructor
      · refine (G_snoc none (acc ++ [delim]) _).mpr ⟨?_, h1', hnl, ?_, ?_⟩
        · exact (G_snoc none acc delim).mpr ⟨hG, by decide, by decide,
            fun ht => absurd ht (by decide), fun hp => absurd hp (by decide)⟩
        · intro _
          exact prevOf_append_one none acc delim
        · intro hp
          exact absurd hp hpn
      · intro _
        exact ⟨rstripNewline line, List.getLast?_concat _, hen, hpn⟩
    · push_neg at h3
      obtain ⟨_, hlast⟩ := h3
      rw [step_title_keep h1' h2 hlast]
      constructor
      · exact (G_snoc none acc _).mpr ⟨hG, h1', hnl,
          fun _ => prevOf_of_getLast? hlast, fun hp => absurd hp hpn⟩
      · intro _
        exact ⟨rstripNewline line, List.getLast?_concat _, hen, hpn⟩
  have h2' : is_title_line (rstripNewline line) = false := bool_eq_false h2
  by_cases h3 : pyStrip (rstripNewline line) = []
  · by_cases h4 : (st = some PrevType.title ∨ st = some PrevType.text) ∧
      (acc = [] ∨ acc.getLast? ≠ some ([] : List Char))
    · rw [step_blank_append h1' h2' h3 h4.1 h4.2]
      obtain ⟨e, he1, he2, he3⟩ := hS h4.1
      constructor
      · exact (G_snoc none acc _).mpr ⟨hG, rfl, by simp,
          fun ht => absurd ht (by decide),
          fun _ => ⟨rfl, e, prevOf_of_getLast? he1, he2, he3⟩⟩
      · intro hx
        rcases hx with hx | hx <;> simp at hx
    · rw [step_blank_skip h1' h2' h3 h4]
      refine ⟨hG, ?_⟩
      intro hx
      rcases hx with hx | hx <;> simp at hx
  · rw [step_body h1' h2' h3]
    have hti : is_title_line (rstripNewline line) = true → prevOf none acc = some delim := by
      intro ht
      rw [h2'] at ht
      cases ht
    constructor
    · exact (G_snoc none acc _).mpr ⟨hG, h1', hnl, hti, fun hp => absurd hp h3⟩
    · intro _
      exact ⟨rstripNewline line, List.getLast?_concat _, ne_nil_of_pyStrip h3, h3⟩

theorem foldl_G (lines : List (List Char)) :
    ∀ (st : Option PrevType) (acc : List (List Char)),
      (∀ l ∈ lines, '\n' ∉ rstripNewline l) → G none acc → Side st acc →
      G none (lines.foldl step (st, acc)).2 ∧
        Side (lines.foldl step (st, acc)).1 (lines.foldl step (st, acc)).2 := by
  induction lines with
  | nil => intro st acc _ hG hS; exact ⟨hG, hS⟩
  | cons l rest ih =>
    intro st acc hnl hG hS
    rw [List.foldl_cons]
    obtain ⟨hG', hS'⟩ := step_preserves st acc l (hnl l (by simp)) hG hS
    have hres := ih (step (st, acc) l).1 (step (st, acc) l).2
      (fun m hm => hnl m (by simp [hm])) hG' hS'
    exact hres

theorem clean_G (t : List Char) : G none (clean_fables_lines (readLines t)) :=
  (foldl_G (readLines t) none [] (readLines_no_newline t) trivial
    (fun h => by rcases h with h | h <;> cases h)).1

/-! The bridge: stripping the joined cleaned lines and splitting again
yields the cleaned lines with the trailing empty entry dropped, the
first entry stripped on the left and the last entry stripped on the
right; all of this preserves the structural invariant. -/

/-- Drop the trailing empty entry of the cleaned sequence, when present;
the final whole-text strip erases exactly this entry. -/
def dropTrailingNil (cs : List (List Char)) : List (List Char) :=
  if cs.getLast? = some ([] : List Char) then cs.dropLast else cs

/-- The cleaned sequence as it appears in the written file: trailing
empty entry dropped, first entry left-stripped, last entry right-stripped. -/
def adjustEnds (cs : List (List Char)) : List (List Char) :=
  mapFirst (lstrip pyIsSpace) (mapLast (rstrip pyIsSpace) (dropTrailingNil cs))

theorem mem_of_getLast?_eq {α : Type} {l : List α} {a : α}
    (h : l.getLast? = some a) : a ∈ l := by
  have hne : l ≠ [] := by intro h0; rw [h0] at h; cases h
  rw [List.getLast?_eq_getLast l hne] at h
  injection h with h'
  rw [← h']
  exact List.getLast_mem hne

theorem exists_not_ws_of_pyStrip {s : List Char} (h : pyStrip s ≠ []) :
    ∃ c ∈ s, pyIsSpace c = false := by
  by_contra hx
  apply h
  apply (pyStrip_eq_nil_iff s).mpr
  intro c hc
  by_contra hcc
  exact hx ⟨c, hc, bool_eq_false hcc⟩

theorem G_head_pyStrip {a : List Char} {as : List (List Char)}
    (h : G none (a :: as)) : pyStrip a ≠ [] := by
  intro hp
  obtain ⟨_, q, hq, _⟩ := h.2.2.2.1 hp
  cases hq

theorem mapLast_ne_nil (f : List Char → List Char) {xs : List (List Char)}
    (h : xs ≠ []) : mapLast f xs ≠ [] := by
  cases xs with
  | nil => exact absurd rfl h
  | cons a as => cases as <;> simp [mapLast, mapLast_cons]

theorem joinNL_snoc (xs : List (List Char)) (x : List Char) (h : xs ≠ []) :
    joinNL (xs ++ [x]) = joinNL xs ++ '\n' :: x := by
  induction xs with
  | nil => exact absurd rfl h
  | cons a as ih =>
    cases as with
    | nil => rfl
    | cons b bs =>
      rw [List.cons_append, joinNL_cons a ((b :: bs) ++ [x]) (by simp),
        ih (by simp), joinNL_cons a (b :: bs) (by simp)]
      simp

theorem pyStrip_joinNL_trailing_nil (cs' : List (List Char)) (h : cs' ≠ []) :
    pyStrip (joinNL (cs' ++ [[]])) = pyStrip (joinNL cs') := by
  rw [joinNL_snoc cs' [] h]
  rw [show ('\n' :: ([] : List Char)) = ['\n'] from rfl]
  exact pyStrip_append_ws_right _ ['\n'] (by intro c hc; simp at hc; subst hc; decide)

theorem rstrip_joinNL_mapLast (ds : List (List Char)) (hne : ds ≠ [])
    (hlast : ∀ e, ds.getLast? = some e → ∃ c ∈ e, pyIsSpace c = false) :
    rstrip pyIsSpace (joinNL ds) = joinNL (mapLast (rstrip pyIsSpace) ds) := by
  induction ds with
  | nil => exact absurd rfl hne
  | cons y ds' ih =>
    cases ds' with
    | nil => rfl
    | cons b bs =>
      have hlast' : ∀ e, (b :: bs).getLast? = some e → ∃ c ∈ e, pyIsSpace c = false := by
        intro e he
        exact hlast e (by rw [List.getLast?_cons_cons]; exact he)
      have hex2 : ∃ c ∈ joinNL (b :: bs), pyIsSpace c = false := by
        obtain ⟨e, he⟩ : ∃ e, (b :: bs).getLast? = some e := by
          cases hget : (b :: bs).getLast? with
          | none => exact absurd (List.getLast?_eq_none_iff.mp hget) (by simp)
          | some e => exact ⟨e, rfl⟩
        obtain ⟨c, hc, hcf⟩ := hlast' e he
        exact ⟨c, mem_joinNL (mem_of_getLast?_eq he) hc, hcf⟩
      have hex : ∃ c ∈ '\n' :: joinNL (b :: bs), pyIsSpace c = false := by
        obtain ⟨c, hc, hcf⟩ := hex2
        exact ⟨c, List.mem_cons_of_mem _ hc, hcf⟩
      rw [joinNL_cons y (b :: bs) (by simp), rstrip_append _ y _ hex,
        show ('\n' :: joinNL (b :: bs)) = ['\n'] ++ joinNL (b :: bs) from rfl,
        rstrip_append _ ['\n'] _ hex2, ih (by simp) hlast',
        mapLast_cons _ y (b :: bs) (by simp),
        joinNL_cons y _ (mapLast_ne_nil _ (by simp))]
      simp

theorem lstrip_joinNL_mapFirst (x : List Char) (rest : List (List Char))
    (hx : ∃ c ∈ x, pyIsSpace c = false) :
    lstrip pyIsSpace (joinNL (x :: rest)) =
      joinNL (mapFirst (lstrip pyIsSpace) (x :: rest)) := by
  cases rest with
  | nil => rfl
  | cons b bs =>
    rw [joinNL_cons x (b :: bs) (by simp), lstrip_append _ x _ hx]
    show lstrip _ x ++ '\n' :: joinNL (b :: bs) = joinNL (lstrip _ x :: b :: bs)
    rw [joinNL_cons _ (b :: bs) (by simp)]

theorem bridge_core (ds : List (List Char)) (hG : G none ds) (hne : ds ≠ [])
    (hlast : ∀ e, ds.getLast? = some e → pyStrip e ≠ []) :
    splitLines (pyStrip (joinNL ds)) =
        mapFirst (lstrip pyIsSpace) (mapLast (rstrip pyIsSpace) ds) ∧
      G none (mapFirst (lstrip pyIsSpace) (mapLast (rstrip pyIsSpace) ds)) ∧
      mapFirst (lstrip pyIsSpace) (mapLast (rstrip pyIsSpace) ds) ≠ [] := by
  obtain ⟨a, as, rfl⟩ : ∃ a as, ds = a :: as := by
    cases ds with
    | nil => exact absurd rfl hne
    | cons a as => exact ⟨a, as, rfl⟩
  have hheadp : pyStrip a ≠ [] := G_head_pyStrip hG
  have hheadex : ∃ c ∈ a, pyIsSpace c = false := exists_not_ws_of_pyStrip hheadp
  have hG2 : G none (mapLast (rstrip pyIsSpace) (a :: as)) := G_mapLast hG
  have hG3 : G none (mapFirst (lstrip pyIsSpace) (mapLast (rstrip pyIsSpace) (a :: as))) :=
    G_mapFirst hG2
  have hlast' : ∀ e, (a :: as).getLast? = some e → ∃ c ∈ e, pyIsSpace c = false :=
    fun e he => exists_not_ws_of_pyStrip (hlast e he)
  have h2 : rstrip pyIsSpace (joinNL (a :: as)) =
      joinNL (mapLast (rstrip pyIsSpace) (a :: as)) :=
    rstrip_joinNL_mapLast (a :: as) (by simp) hlast'
  have hshape : ∃ x xrest, mapLast (rstrip pyIsSpace) (a :: as) = x :: xrest ∧
      ∃ c ∈ x, pyIsSpace c = false := by
    cases as with
    | nil => exact ⟨rstrip pyIsSpace a, [], rfl, rstrip_keeps_not _ _ hheadex⟩
    | cons b bs =>
      exact ⟨a, mapLast (rstrip pyIsSpace) (b :: bs),
        mapLast_cons _ _ _ (by simp), hheadex⟩
  obtain ⟨x, xrest, hxeq, hxex⟩ := hshape
  have h3 : lstrip pyIsSpace (joinNL (mapLast (rstrip pyIsSpace) (a :: as))) =
      joinNL (mapFirst (lstrip pyIsSpace) (mapLast (rstrip pyIsSpace) (a :: as))) := by
    rw [hxeq]
    exact lstrip_joinNL_mapFirst x xrest hxex
  have hkey : pyStrip (joinNL (a :: as)) =
      joinNL (mapFirst (lstrip pyIsSpace) (mapLast (rstrip pyIsSpace) (a :: as))) := by
    show lstrip pyIsSpace (rstrip pyIsSpace (joinNL (a :: as))) = _
    rw [h2, h3]
  have hesne : mapFirst (lstrip pyIsSpace) (mapLast (rstrip pyIsSpace) (a :: as)) ≠ [] := by
    rw [hxeq]
    show lstrip pyIsSpace x :: xrest ≠ []
    simp
  refine ⟨?_, hG3, hesne⟩
  rw [hkey]
  exact splitLines_joinNL _ (fun e he => (G_mem hG3 e he).2.1) hesne

theorem getLast?_of_prevOf_none {xs : List (List Char)} {q : List Char}
    (h : prevOf none xs = some q) : xs.getLast? = some q := by
  unfold prevOf at h
  cases hg : xs.getLast? with
  | none => rw [hg] at h; cases h
  | some e =>
    rw [hg] at h
    simp at h
    rw [h]

theorem clean_bridge {cs : List (List Char)} (hG : G none cs) (hne : cs ≠ []) :
    splitLines (pyStrip (joinNL cs)) = adjustEnds cs ∧
      G none (adjustEnds cs) ∧ adjustEnds cs ≠ [] := by
  by_cases hl : cs.getLast? = some ([] : List Char)
  · have hgl : cs.getLast hne = [] := by
      have hx := List.getLast?_eq_getLast cs hne
      rw [hl] at hx
      injection hx with h'
      exact h'.symm
    have hdecomp : cs.dropLast ++ [[]] = cs := by
      have hx := List.dropLast_append_getLast hne
      rw [hgl] at hx
      exact hx
    have hdne : cs.dropLast ≠ [] := by
      intro h0
      rw [h0] at hdecomp
      have hcs : cs = [[]] := hdecomp.symm
      rw [hcs] at hG
      exact G_head_pyStrip hG rfl
    have hGds : G none cs.dropLast := by
      rw [← hdecomp] at hG
      exact G_of_append _ _ hG
    have hsnoc := (G_snoc none cs.dropLast []).mp (by rw [hdecomp]; exact hG)
    obtain ⟨_, q, hq, _, hq2⟩ := hsnoc.2.2.2.2 rfl
    have hqlast : cs.dropLast.getLast? = some q := getLast?_of_prevOf_none hq
    have hlastf : ∀ e, cs.dropLast.getLast? = some e → pyStrip e ≠ [] := by
      intro e he
      rw [hqlast] at he
      injection he with he'
      exact he' ▸ hq2
    have hcore := bridge_core cs.dropLast hGds hdne hlastf
    have hadj : adjustEnds cs =
        mapFirst (lstrip pyIsSpace) (mapLast (rstrip pyIsSpace) cs.dropLast) := by
      unfold adjustEnds dropTrailingNil
      rw [if_pos hl]
    have hps : pyStrip (joinNL cs) = pyStrip (joinNL cs.dropLast) := by
      conv_lhs => rw [← hdecomp]
      exact pyStrip_joinNL_trailing_nil _ hdne
    rw [hadj, hps]
    exact hcore
  · have hlastf : ∀ e, cs.getLast? = some e → pyStrip e ≠ [] := by
      intro e he hp
      have hmem := mem_of_getLast?_eq he
      have hee := (G_mem hG e hmem).2.2 hp
      rw [hee] at he
      exact hl he
    have hadj : adjustEnds cs =
        mapFirst (lstrip pyIsSpace) (mapLast (rstrip pyIsSpace) cs) := by
      unfold adjustEnds dropTrailingNil
      rw [if_neg hl]
    rw [hadj]
    exact bridge_core cs hG hne hlastf

/-! Running the pass a second time over its own output copies every line
unchanged: the identity lemma for the fold over a sequence satisfying
the structural invariant. -/

/-- The previous_line_type value that processing a given already-cleaned
line leaves behind. -/
def stOf (e : List Char) : Option PrevType :=
  if is_title_line e then some PrevType.title
  else if pyStrip e = [] then some PrevType.empty
  else some PrevType.text

/-- Connects the previous_line_type state with the last emitted entry. -/
def stMatch : Option (List Char) → Option PrevType → Prop
  | none, st => st = none
  | some e, st => st = stOf e

theorem step_congr {l1 l2 : List Char} (p : Option PrevType × List (List Char))
    (h : rstripNewline l1 = rstripNewline l2) : step p l1 = step p l2 := by
  unfold step
  rw [h]

theorem foldl_step_map_newline (ns : List (List Char)) (h : ∀ m ∈ ns, '\n' ∉ m) :
    ∀ p : Option PrevType × List (List Char),
      (ns.map (fun m => m ++ ['\n'])).foldl step p = ns.foldl step p := by
  induction ns with
  | nil => intro p; rfl
  | cons m rest ih =>
    intro p
    rw [List.map_cons, List.foldl_cons, List.foldl_cons]
    have hstep : step p (m ++ ['\n']) = step p m :=
      step_congr p (by
        rw [rstripNewline_append_newline (h m (by simp)),
          rstripNewline_of_no_newline (h m (by simp))])
    rw [hstep]
    exact ih (fun x hx => h x (by simp [hx])) _

theorem foldl_step_id (ms : List (List Char)) :
    ∀ (st : Option PrevType) (acc : List (List Char)),
      G acc.getLast? ms → stMatch acc.getLast? st →
      (ms.foldl step (st, acc)).2 = acc ++ ms := by
  induction ms with
  | nil => intro st acc _ _; simp
  | cons e rest ih =>
    intro st acc hG hm
    obtain ⟨h1, h2, h3, h4, h5⟩ := hG
    have hre : rstripNewline e = e := rstripNewline_of_no_newline h2
    rw [List.foldl_cons]
    by_cases ht : is_title_line e = true
    · have hlast : acc.getLast? = some delim := h3 ht
      rw [step_title_keep (by rw [hre]; exact h1) (by rw [hre]; exact ht) hlast, hre]
      have hrec := ih (some PrevType.title) (acc ++ [e])
        (by rw [List.getLast?_concat]; exact h5)
        (by rw [List.getLast?_concat]; simp [stMatch, stOf, ht])
      rw [hrec]
      simp
    · have ht' : is_title_line e = false := bool_eq_false ht
      by_cases hb : pyStrip e = []
      · obtain ⟨he, q, hq, hq1, hq2⟩ := h4 hb
        subst he
        have hst : st = stOf q := by rw [hq] at hm; exact hm
        have hstq : st = some PrevType.title ∨ st = some PrevType.text := by
          rw [hst]
          unfold stOf
          by_cases hqt : is_title_line q = true
          · left; rw [if_pos hqt]
          · right; rw [if_neg hqt, if_neg hq2]
        have hccond : acc = [] ∨ acc.getLast? ≠ some ([] : List Char) := by
          right
          rw [hq]
          intro hcon
          injection hcon with hcon'
          exact hq1 hcon'
        rw [step_blank_append (by rw [show rstripNewline [] = [] from rfl]; rfl)
          (by rw [show rstripNewline [] = [] from rfl]; exact ht')
          (by rw [show rstripNewline [] = [] from rfl]; exact hb) hstq hccond]
        have hti : is_title_line ([] : List Char) = false := by decide
        have hrec := ih (some PrevType.empty) (acc ++ [[]])
          (by rw [List.getLast?_concat]; exact h5)
          (by rw [List.getLast?_concat]; simp [stMatch, stOf, hti, hb])
        rw [hrec]
        simp
      · rw [step_body (by rw [hre]; exact h1) (by rw [hre]; exact ht')
          (by rw [hre]; exact hb), hre]
        have hrec := ih (some PrevType.text) (acc ++ [e])
          (by rw [List.getLast?_concat]; exact h5)
          (by rw [List.getLast?_concat]; simp [stMatch, stOf, ht', hb])
        rw [hrec]
        simp

/-- C1: Idempotence of the transformation: for every input, running the
normalize/clean transformation on its own output produces that same
output: the written text of the second run equals the written text of
the first run. -/
theorem normalize_idempotent (t : List Char) :
    normalizeText (normalizeText t) = normalizeText t := by
  by_cases hnil : clean_fables_lines (readLines t) = []
  · have h1 : normalizeText t = ['\n'] := by
      unfold normalizeText
      rw [hnil]
      rfl
    rw [h1]
    decide
  · have hG := clean_G t
    obtain ⟨hout, hGms, _⟩ := clean_bridge hG hnil
    set S : List Char := pyStrip (joinNL (clean_fables_lines (readLines t))) with hS
    have hnt : normalizeText t = S ++ ['\n'] := rfl
    have hclean2 : clean_fables_lines (readLines (S ++ ['\n'])) = splitLines S := by
      show (List.foldl step (none, []) (readLines (S ++ ['\n']))).2 = splitLines S
      rw [readLines_append_newline S,
        foldl_step_map_newline (splitLines S) (splitLines_no_newline S) (none, [])]
      have hid := foldl_step_id (splitLines S) none []
        (by show G none (splitLines S); rw [hout]; exact hGms) rfl
      rw [hid]
      simp
    rw [hnt]
    show pyStrip (joinNL (clean_fables_lines (readLines (S ++ ['\n'])))) ++ ['\n'] = S ++ ['\n']
    rw [hclean2, joinNL_splitLines S, hS, pyStrip_idem]

/-! The claims about classification, error handling, trimming, the empty
result, the trailing newline, and the whole-text strip invariant. -/

/-- C4: Title classification rule: a line is classified as a title if and
only if, after trimming leading and trailing whitespace, every alphabetic
character in it is uppercase and it contains at least one alphabetic
character. -/
theorem is_title_line_iff (line : List Char) :
    is_title_line line = true ↔
      (∀ c ∈ pyStrip line, c.isAlpha = true → c.isUpper = true) ∧
        ∃ c ∈ pyStrip line, c.isAlpha = true := by
  unfold is_title_line pyIsUpperStr
  rw [Bool.and_eq_true, Bool.and_eq_true]
  constructor
  · rintro ⟨⟨_, hall⟩, hany2⟩
    refine ⟨?_, List.any_eq_true.mp hany2⟩
    intro c hc ha
    have hcc := List.all_eq_true.mp hall c hc
    rcases Bool.or_eq_true_iff.mp hcc with h | h
    · rw [ha] at h; cases h
    · exact h
  · rintro ⟨hall, hex⟩
    have hany : (pyStrip line).any (fun c => c.isAlpha) = true := List.any_eq_true.mpr hex
    refine ⟨⟨hany, ?_⟩, hany⟩
    apply List.all_eq_true.mpr
    intro c hc
    by_cases ha : c.isAlpha = true
    · rw [hall c hc ha]
      simp
    · rw [bool_eq_false ha]
      rfl

/-- C5: Missing-file error handling: when the path does not resolve to an
existing file, clean_fables returns the file-not-found error and the file
system is left unchanged. -/
theorem clean_fables_missing_file (fs : String → Option (List Char)) (path : String)
    (h : fs path = none) :
    (clean_fables fs path).1 = Except.error ("Input file not found at " ++ path) ∧
      (clean_fables fs path).2 = fs := by
  unfold clean_fables
  rw [h]
  exact ⟨rfl, rfl⟩

/-- Witness for the missing-file theorem at the empty file system. -/
theorem clean_fables_missing_file_witness :
    (clean_fables (fun _ => none) "f").1 =
        Except.error ("Input file not found at " ++ "f") ∧
      (clean_fables (fun _ => none) "f").2 = (fun _ => none) :=
  clean_fables_missing_file (fun _ => none) "f" rfl

/-- C3 counterexample: the title line made of the letter A and a trailing
space is appended to the cleaned sequence with its trailing space intact,
and written to the file with its trailing space intact, not trimmed. -/
theorem title_trim_counterexample :
    clean_fables_lines [['A', ' ', '\n']] = [delim, ['A', ' ']] ∧
      ['A', ' '] ≠ pyStrip ['A', ' ', '\n'] ∧
      normalizeText ['A', ' ', '\n', '\n', 'x', '\n'] =
        '#' :: '#' :: '#' :: '\n' :: 'A' :: ' ' :: '\n' :: '\n' :: 'x' :: '\n' :: [] := by
  refine ⟨by decide, by decide, by decide⟩

/-- C3 amended: for an input line classified as a title, the entry appended
to the cleaned sequence is the line with only its trailing newline
characters removed; leading whitespace cannot occur because such lines are
discarded as commentary, but trailing spaces and tabs are preserved. -/
theorem title_appended_newline_stripped (st : Option PrevType)
    (acc : List (List Char)) (line : List Char)
    (h1 : startsWithSpaceTab (rstripNewline line) = false)
    (h2 : is_title_line (rstripNewline line) = true) :
    (step (st, acc) line).2 =
      (if acc = [] ∨ acc.getLast? ≠ some delim then acc ++ [delim] else acc)
        ++ [rstripNewline line] := by
  by_cases h3 : acc = [] ∨ acc.getLast? ≠ some delim
  · rw [step_title_append h1 h2 h3, if_pos h3]
  · have hl : acc.getLast? = some delim := by
      push_neg at h3
      exact h3.2
    rw [step_title_keep h1 h2 hl, if_neg h3]

/-- Witness for the amended title theorem at a concrete line. -/
theorem title_appended_newline_stripped_witness :
    startsWithSpaceTab (rstripNewline ['A', ' ', '\n']) = false ∧
      is_title_line (rstripNewline ['A', ' ', '\n']) = true ∧
      (step (none, ([] : List (List Char))) ['A', ' ', '\n']).2 =
        (if ([] : List (List Char)) = [] ∨
            ([] : List (List Char)).getLast? ≠ some delim
          then ([] : List (List Char)) ++ [delim] else []) ++ [rstripNewline ['A', ' ', '\n']] :=
  ⟨by decide, by decide,
    title_appended_newline_stripped none [] ['A', ' ', '\n'] (by decide) (by decide)⟩

theorem is_title_of_blank {s : List Char} (h : pyStrip s = []) :
    is_title_line s = false := by
  unfold is_title_line pyIsUpperStr
  rw [h]
  rfl

theorem foldl_discard : ∀ (lines : List (List Char)),
    (∀ l ∈ lines,
      startsWithSpaceTab (rstripNewline l) = true ∨ pyStrip (rstripNewline l) = []) →
    ∀ (st : Option PrevType) (acc : List (List Char)),
      (st = none ∨ st = some PrevType.empty) →
      (lines.foldl step (st, acc)).2 = acc ∧
        ((lines.foldl step (st, acc)).1 = none ∨
          (lines.foldl step (st, acc)).1 = some PrevType.empty) := by
  intro lines
  induction lines with
  | nil => intro _ st acc hst; exact ⟨rfl, hst⟩
  | cons l rest ih =>
    intro h st acc hst
    rw [List.foldl_cons]
    by_cases hsw : startsWithSpaceTab (rstripNewline l) = true
    · rw [step_skip hsw]
      exact ih (fun m hm => h m (by simp [hm])) st acc hst
    · have hsw' := bool_eq_false hsw
      have hb : pyStrip (rstripNewline l) = [] := by
        rcases h l (by simp) with hc | hb
        · exact absurd hc hsw
        · exact hb
      have hti : is_title_line (rstripNewline l) = false := is_title_of_blank hb
      have hnc : ¬((st = some PrevType.title ∨ st = some PrevType.text) ∧
          (acc = [] ∨ acc.getLast? ≠ some ([] : List Char))) := by
        rintro ⟨hor, _⟩
        rcases hst with rfl | rfl <;> rcases hor with hx | hx <;> simp at hx
      rw [step_blank_skip hsw' hti hb hnc]
      exact ih (fun m hm => h m (by simp [hm])) (some PrevType.empty) acc (Or.inr rfl)

/-- C9: Empty-result edge case: if every input line is discarded because it
is commentary (leading space or tab) or blank, in particular when the file
is empty, the file is overwritten with exactly the single newline character. -/
theorem empty_result (t : List Char)
    (h : ∀ l ∈ readLines t,
      startsWithSpaceTab (rstripNewline l) = true ∨ pyStrip l = []) :
    normalizeText t = ['\n'] := by
  have h' : ∀ l ∈ readLines t,
      startsWithSpaceTab (rstripNewline l) = true ∨ pyStrip (rstripNewline l) = [] := by
    intro l hl
    rcases h l hl with hc | hb
    · exact Or.inl hc
    · right
      rw [pyStrip_rstripNewline]
      exact hb
  have hd := foldl_discard (readLines t) h' none [] (Or.inl rfl)
  unfold normalizeText clean_fables_lines
  rw [hd.1]
  rfl

/-- Witness for the empty-result theorem: a file holding one commentary
line and one blank line is rewritten as a single newline. -/
theorem empty_result_witness :
    (∀ l ∈ readLines (' ' :: 'x' :: '\n' :: '\n' :: []),
        startsWithSpaceTab (rstripNewline l) = true ∨ pyStrip l = []) ∧
      normalizeText (' ' :: 'x' :: '\n' :: '\n' :: []) = ['\n'] :=
  ⟨by decide, empty_result (' ' :: 'x' :: '\n' :: '\n' :: []) (by decide)⟩

theorem trailingOk_append_newline (S : List Char)
    (h : S = [] ∨ ∃ d, S.getLast? = some d ∧ pyIsSpace d = false) :
    trailingOk (S ++ ['\n']) = true := by
  unfold trailingOk
  simp only [List.getLast?_concat]
  rw [List.dropLast_concat]
  rcases h with rfl | ⟨d, hd, hdw⟩
  · decide
  · have hdn : d ≠ '\n' := by
      intro he
      subst he
      exact absurd hdw (by decide)
    have hne : S ≠ [] := by
      intro h0
      rw [h0] at hd
      cases hd
    obtain ⟨tl, htl⟩ : ∃ tl, S.reverse = d :: tl := by
      cases hr : S.reverse with
      | nil => exact absurd (List.reverse_eq_nil_iff.mp hr) hne
      | cons x xs =>
        have hx := List.head?_reverse S
        rw [hr, hd] at hx
        simp at hx
        exact ⟨xs, by rw [hx]⟩
    have hmem : d ∈ lastLine S := by
      unfold lastLine
      rw [htl, List.takeWhile_cons]
      rw [show (!(d = '\n' : Bool)) = true from by simp [hdn]]
      simp
    have hany : (lastLine S).any (fun c => !pyIsSpace c) = true :=
      List.any_eq_true.mpr ⟨d, hmem, by rw [hdw]; rfl⟩
    simp [hany]

/-- C8: Trailing newline: for every input, the written output ends with
exactly one newline character and contains no trailing blank lines before
it: the text preceding the final newline is empty or has a final line
containing a non-whitespace character. -/
theorem trailing_newline_ok (t : List Char) : trailingOk (normalizeText t) = true := by
  unfold normalizeText
  apply trailingOk_append_newline
  by_cases h : pyStrip (joinNL (clean_fables_lines (readLines t))) = []
  · exact Or.inl h
  · right
    obtain ⟨d, hd⟩ : ∃ d,
        (pyStrip (joinNL (clean_fables_lines (readLines t)))).getLast? = some d := by
      cases hg : (pyStrip (joinNL (clean_fables_lines (readLines t)))).getLast? with
      | none => exact absurd (List.getLast?_eq_none_iff.mp hg) h
      | some d => exact ⟨d, rfl⟩
    exact ⟨d, hd, pyStrip_getLast_not _ d hd⟩

theorem strippedClean_pyStrip (s : List Char) : strippedClean (pyStrip s) = true := by
  unfold strippedClean
  have h1 : (match (pyStrip s).head? with
      | none => true
      | some c => !pyIsSpace c) = true := by
    cases hh : (pyStrip s).head? with
    | none => rfl
    | some c =>
      show (!pyIsSpace c) = true
      rw [pyStrip_head_not s c hh]
      rfl
  have h2 : (match (pyStrip s).getLast? with
      | none => true
      | some c => !pyIsSpace c) = true := by
    cases hh : (pyStrip s).getLast? with
    | none => rfl
    | some c =>
      show (!pyIsSpace c) = true
      rw [pyStrip_getLast_not s c hh]
      rfl
  rw [h1, h2]
  rfl

/-- C10: Whole-text strip invariant: the written text is its own dropLast
plus one final newline, and that text before the final newline neither
starts nor ends with any whitespace character. -/
theorem whole_text_strip_invariant (t : List Char) :
    normalizeText t = (normalizeText t).dropLast ++ ['\n'] ∧
      strippedClean ((normalizeText t).dropLast) = true := by
  constructor
  · unfold normalizeText
    rw [List.dropLast_concat]
  · unfold normalizeText
    rw [List.dropLast_concat]
    exact strippedClean_pyStrip _

/-! The output line sequence satisfies the structural invariant. -/

theorem outputLines_G (t : List Char) :
    outputLines t = [[]] ∨ G none (outputLines t) := by
  by_cases hnil : clean_fables_lines (readLines t) = []
  · left
    unfold outputLines
    rw [hnil]
    rfl
  · right
    obtain ⟨hout, hGms, _⟩ := clean_bridge (clean_G t) hnil
    unfold outputLines
    rw [hout]
    exact hGms

/-- C7: No indentation survives: no line of the output starts with a space
or tab character. -/
theorem no_indentation (t : List Char) :
    (outputLines t).all (fun l => !startsWithSpaceTab l) = true := by
  rcases outputLines_G t with h | h
  · rw [h]
    rfl
  · apply List.all_eq_true.mpr
    intro l hl
    rw [(G_mem h l hl).1]
    rfl

theorem G_pairwise_empty {l : Option (List Char)} {ms : List (List Char)}
    (hG : G l ms) :
    pairwiseOkB (fun a b => !(a.isEmpty && b.isEmpty)) ms = true := by
  induction ms generalizing l with
  | nil => rfl
  | cons a rest ih =>
    cases rest with
    | nil => rfl
    | cons b bs =>
      obtain ⟨_, _, _, _, h5⟩ := hG
      have hfb : (!(a.isEmpty && b.isEmpty)) = true := by
        by_cases hbe : b = []
        · subst hbe
          obtain ⟨_, q, hq, hq1, _⟩ := h5.2.2.2.1 rfl
          injection hq with hq'
          rw [← hq'] at hq1
          have : a.isEmpty = false := by
            rw [← Bool.not_eq_true]
            intro hx
            exact hq1 (List.isEmpty_iff.mp hx)
          simp [this]
        · have : b.isEmpty = false := by
            rw [← Bool.not_eq_true]
            intro hx
            exact hbe (List.isEmpty_iff.mp hx)
          simp [this]
      show ((!(a.isEmpty && b.isEmpty)) &&
        pairwiseOkB (fun a b => !(a.isEmpty && b.isEmpty)) (b :: bs)) = true
      rw [hfb, ih h5]
      rfl

/-- C6: Blank-line collapsing: the output line sequence never contains two
consecutive empty lines. -/
theorem blank_collapsing (t : List Char) :
    pairwiseOkB (fun a b => !(a.isEmpty && b.isEmpty)) (outputLines t) = true := by
  rcases outputLines_G t with h | h
  · rw [h]
    rfl
  · exact G_pairwise_empty h

/-! The delimiter-placement invariant. Under the hypothesis that no input
line strips to the delimiter token, the only delimiter-valued entries of
the cleaned sequence are the ones inserted by the title branch, each of
which is immediately followed by a title entry. -/

/-- Pair relation: a delimiter entry is followed by a title entry. -/
def Rq (a b : List Char) : Prop := a = delim → is_title_line b = true

theorem foldl_QW : ∀ (lines : List (List Char)),
    (∀ l ∈ lines, pyStrip (rstripNewline l) ≠ delim) →
    ∀ (st : Option PrevType) (acc : List (List Char)),
      List.Chain' Rq acc → acc.getLast? ≠ some delim →
      (∀ e ∈ acc, pyStrip e = delim → e = delim) →
      List.Chain' Rq (lines.foldl step (st, acc)).2 ∧
        (lines.foldl step (st, acc)).2.getLast? ≠ some delim ∧
        (∀ e ∈ (lines.foldl step (st, acc)).2, pyStrip e = delim → e = delim) := by
  intro lines
  induction lines with
  | nil => intro _ st acc h1 h2 h3; exact ⟨h1, h2, h3⟩
  | cons l rest ih =>
    intro hH st acc h1 h2 h3
    have hHrest : ∀ m ∈ rest, pyStrip (rstripNewline m) ≠ delim :=
      fun m hm => hH m (by simp [hm])
    have hHl : pyStrip (rstripNewline l) ≠ delim := hH l (by simp)
    rw [List.foldl_cons]
    by_cases hc : startsWithSpaceTab (rstripNewline l) = true
    · rw [step_skip hc]
      exact ih hHrest st acc h1 h2 h3
    have hc' := bool_eq_false hc
    by_cases hti : is_title_line (rstripNewline l) = true
    · rw [step_title_append hc' hti (Or.inr h2)]
      apply ih hHrest
      · rw [List.append_assoc]
        apply List.chain'_append.mpr
        refine ⟨h1, ?_, ?_⟩
        · apply List.chain'_cons'.mpr
          refine ⟨?_, List.chain'_singleton _⟩
          intro y hy
          simp at hy
          subst hy
          intro _
          exact hti
        · intro x hx y hy
          intro hxd
          subst hxd
          exact absurd (Option.mem_def.mp hx) h2
      · rw [List.append_assoc,
          show ([delim] ++ [rstripNewline l]) = [delim, rstripNewline l] from rfl]
        rw [show acc ++ [delim, rstripNewline l] = (acc ++ [delim]) ++ [rstripNewline l] from by simp]
        rw [List.getLast?_concat]
        intro hcon
        injection hcon with hcon'
        exact is_title_ne_delim hti hcon'
      · intro e he
        rw [List.append_assoc] at he
        rcases List.mem_append.mp he with hacc | hnew
        · exact h3 e hacc
        · rcases List.mem_cons.mp hnew with rfl | hnew2
          · intro _; rfl
          · rcases List.mem_cons.mp hnew2 with rfl | hnew3
            · intro hp
              exact absurd hp hHl
            · simp at hnew3
    have hti' := bool_eq_false hti
    by_cases hbl : pyStrip (rstripNewline l) = []
    · by_cases hcnd : (st = some PrevType.title ∨ st = some PrevType.text) ∧
        (acc = [] ∨ acc.getLast? ≠ some ([] : List Char))
      · rw [step_blank_append hc' hti' hbl hcnd.1 hcnd.2]
        apply ih hHrest
        · apply List.chain'_append.mpr
          refine ⟨h1, List.chain'_singleton _, ?_⟩
          intro x hx y _
          intro hxd
          subst hxd
          exact absurd (Option.mem_def.mp hx) h2
        · rw [List.getLast?_concat]
          intro hcon
          injection hcon with hcon'
          exact absurd hcon' (by decide)
        · intro e he
          rcases List.mem_append.mp he with hacc | hnew
          · exact h3 e hacc
          · rcases List.mem_cons.mp hnew with rfl | hnew2
            · intro hp
              exact absurd hp (by decide)
            · simp at hnew2
      · rw [step_blank_skip hc' hti' hbl hcnd]
        exact ih hHrest _ acc h1 h2 h3
    · rw [step_body hc' hti' hbl]
      apply ih hHrest
      · apply List.chain'_append.mpr
        refine ⟨h1, List.chain'_singleton _, ?_⟩
        intro x hx y _
        intro hxd
        subst hxd
        exact absurd (Option.mem_def.mp hx) h2
      · rw [List.getLast?_concat]
        intro hcon
        injection hcon with hcon'
        apply hHl
        rw [hcon']
        decide
      · intro e he
        rcases List.mem_append.mp he with hacc | hnew
        · exact h3 e hacc
        · rcases List.mem_cons.mp hnew with rfl | hnew2
          · intro hp
            exact absurd hp hHl
          · simp at hnew2

theorem chain'_mapLast {R : List Char → List Char → Prop}
    (f : List Char → List Char) (hf : ∀ a y, R a y → R a (f y)) :
    ∀ {xs : List (List Char)}, List.Chain' R xs → List.Chain' R (mapLast f xs) := by
  intro xs
  induction xs with
  | nil => intro _; exact List.chain'_nil
  | cons a as ih =>
    intro h
    cases as with
    | nil => exact List.chain'_singleton _
    | cons b bs =>
      rw [mapLast_cons _ _ _ (by simp)]
      have h' := List.chain'_cons'.mp h
      apply List.chain'_cons'.mpr
      refine ⟨?_, ih h'.2⟩
      intro y hy
      cases bs with
      | nil =>
        simp [mapLast] at hy
        subst hy
        exact hf a b (h'.1 b rfl)
      | cons c cs =>
        rw [mapLast_cons _ _ _ (by simp)] at hy
        simp at hy
        subst hy
        exact h'.1 b rfl

theorem QW_dropTrailingNil {cs : List (List Char)}
    (h1 : List.Chain' Rq cs) (h2 : cs.getLast? ≠ some delim)
    (h3 : ∀ e ∈ cs, pyStrip e = delim → e = delim) :
    List.Chain' Rq (dropTrailingNil cs) ∧
      (dropTrailingNil cs).getLast? ≠ some delim ∧
      (∀ e ∈ dropTrailingNil cs, pyStrip e = delim → e = delim) := by
  unfold dropTrailingNil
  by_cases hl : cs.getLast? = some ([] : List Char)
  · rw [if_pos hl]
    rcases List.eq_nil_or_concat cs with rfl | ⟨xs, y, hxy⟩
    · cases hl
    · rw [List.concat_eq_append] at hxy
      have hy : y = [] := by
        rw [hxy, List.getLast?_concat] at hl
        exact Option.some.inj hl
      subst hy
      rw [hxy, List.dropLast_concat]
      rw [hxy] at h1 h2 h3
      have hparts := List.chain'_append.mp h1
      refine ⟨hparts.1, ?_, ?_⟩
      · intro hcon
        have hb := hparts.2.2 delim (by rw [Option.mem_def]; exact hcon) [] (by rfl)
        exact absurd (hb rfl) (by decide)
      · intro e he
        exact h3 e (List.mem_append_left _ he)
  · rw [if_neg hl]
    exact ⟨h1, h2, h3⟩

theorem QW_mapLast {ds : List (List Char)}
    (h1 : List.Chain' Rq ds) (h2 : ds.getLast? ≠ some delim)
    (h3 : ∀ e ∈ ds, pyStrip e = delim → e = delim) :
    List.Chain' Rq (mapLast (rstrip pyIsSpace) ds) ∧
      (mapLast (rstrip pyIsSpace) ds).getLast? ≠ some delim ∧
      (∀ e ∈ mapLast (rstrip pyIsSpace) ds, pyStrip e = delim → e = delim) := by
  have hf : ∀ a y, Rq a y → Rq a (rstrip pyIsSpace y) := by
    intro a y h had
    rw [is_title_congr (pyStrip_rstrip y)]
    exact h had
  refine ⟨chain'_mapLast _ hf h1, ?_, ?_⟩
  · rcases List.eq_nil_or_concat ds with rfl | ⟨xs, y, hxy⟩
    · simp [mapLast]
    · rw [List.concat_eq_append] at hxy
      rw [hxy, mapLast_snoc, List.getLast?_concat]
      intro hcon
      injection hcon with hcon'
      have hpy : pyStrip y = delim := by
        rw [← pyStrip_rstrip y, hcon']
        decide
      have hyd : y = delim := h3 y (by rw [hxy]; exact List.mem_append_right _ (by simp)) hpy
      apply h2
      rw [hxy, hyd, List.getLast?_concat]
  · intro e he
    rcases List.eq_nil_or_concat ds with rfl | ⟨xs, y, hxy⟩
    · simp [mapLast] at he
    · rw [List.concat_eq_append] at hxy
      rw [hxy, mapLast_snoc] at he
      rcases List.mem_append.mp he with hx | hy
      · exact h3 e (by rw [hxy]; exact List.mem_append_left _ hx)
      · simp at hy
        subst hy
        intro hp
        have hpy : pyStrip y = delim := by rw [← pyStrip_rstrip y]; exact hp
        have hyd : y = delim :=
          h3 y (by rw [hxy]; exact List.mem_append_right _ (by simp)) hpy
        rw [hyd]
        decide

theorem QW_mapFirst {ms : List (List Char)}
    (h1 : List.Chain' Rq ms) (h2 : ms.getLast? ≠ some delim)
    (h3 : ∀ e ∈ ms, pyStrip e = delim → e = delim) :
    List.Chain' Rq (mapFirst (lstrip pyIsSpace) ms) ∧
      (mapFirst (lstrip pyIsSpace) ms).getLast? ≠ some delim := by
  cases ms with
  | nil => exact ⟨List.chain'_nil, by simp [mapFirst]⟩
  | cons x rest =>
    have hxd : lstrip pyIsSpace x = delim → x = delim := by
      intro hld
      apply h3 x (by simp)
      rw [← pyStrip_lstrip x, hld]
      decide
    constructor
    · show List.Chain' Rq (lstrip pyIsSpace x :: rest)
      have h' := List.chain'_cons'.mp h1
      apply List.chain'_cons'.mpr
      refine ⟨?_, h'.2⟩
      intro y hy hld
      exact h'.1 y hy (hxd hld)
    · cases rest with
      | nil =>
        show ([lstrip pyIsSpace x]).getLast? ≠ some delim
        simp only [List.getLast?_singleton]
        intro hcon
        injection hcon with hcon'
        apply h2
        rw [hxd hcon']
        rfl
      | cons r rs =>
        show (lstrip pyIsSpace x :: r :: rs).getLast? ≠ some delim
        rw [List.getLast?_cons_cons]
        rw [List.getLast?_cons_cons] at h2
        exact h2

theorem G_title_index_gen : ∀ (ms : List (List Char)) (l : Option (List Char)),
    G l ms → ∀ i (h : i < ms.length), is_title_line (ms.get ⟨i, h⟩) = true →
      (i = 0 → l = some delim) ∧
        ∀ _ : 0 < i, ms.get ⟨i - 1, by omega⟩ = delim := by
  intro ms
  induction ms with
  | nil => intro l _ i h; simp at h
  | cons e rest ih =>
    intro l hG i h htitle
    obtain ⟨_, _, h3, _, h5⟩ := hG
    cases i with
    | zero =>
      constructor
      · intro _
        exact h3 htitle
      · intro h0
        exact absurd h0 (by omega)
    | succ j =>
      have hj : j < rest.length := by simpa using h
      have htitle' : is_title_line (rest.get ⟨j, hj⟩) = true := by
        simpa using htitle
      have hrec := ih (some e) h5 j hj htitle'
      constructor
      · intro hcon
        cases hcon
      · intro _
        cases j with
        | zero =>
          have hx := hrec.1 rfl
          simpa using Option.some.inj hx
        | succ k =>
          have hx := hrec.2 (by omega)
          simpa using hx

theorem chain'_delim_index {ms : List (List Char)} (hc : List.Chain' Rq ms)
    (hlast : ms.getLast? ≠ some delim) :
    ∀ i (h : i < ms.length), ms.get ⟨i, h⟩ = delim →
      ∃ h1 : i + 1 < ms.length, is_title_line (ms.get ⟨i + 1, h1⟩) = true := by
  intro i h hdelim
  have hi1 : i + 1 < ms.length := by
    by_contra hcon
    have hieq : i = ms.length - 1 := by omega
    have hgl : ms.getLast? = some (ms.get ⟨i, h⟩) := by
      rw [List.getLast?_eq_getElem?, ← hieq, List.getElem?_eq_getElem h]
      rfl
    rw [hdelim] at hgl
    exact hlast hgl
  refine ⟨hi1, ?_⟩
  have hx := List.chain'_iff_get.mp hc i (by omega)
  exact hx hdelim

/-- C2 counterexample: for the input consisting of two lines both holding
the delimiter token as body text, the output is two consecutive delimiter
lines, and the first delimiter line is followed by a non-title line; both
parts of the delimiter-placement claim fail. -/
theorem delimiter_placement_counterexample :
    outputLines ('#' :: '#' :: '#' :: '\n' :: '#' :: '#' :: '#' :: '\n' :: []) =
        [delim, delim] ∧
      is_title_line delim = false :=
  ⟨by decide, by decide⟩

/-- C2 amended: provided no input line strips to the delimiter token, every
title line of the output is immediately preceded by a delimiter line, every
delimiter line is immediately followed by a title line, and that following
line is never another delimiter, so delimiter lines never appear
consecutively. -/
theorem delimiter_placement (t : List Char)
    (hH : ∀ l ∈ readLines t, pyStrip l ≠ delim) :
    ∀ i (h : i < (outputLines t).length),
      (is_title_line ((outputLines t).get ⟨i, h⟩) = true →
        ∃ _ : 0 < i, (outputLines t).get ⟨i - 1, by omega⟩ = delim) ∧
      ((outputLines t).get ⟨i, h⟩ = delim →
        ∃ h1 : i + 1 < (outputLines t).length,
          is_title_line ((outputLines t).get ⟨i + 1, h1⟩) = true ∧
          (outputLines t).get ⟨i + 1, h1⟩ ≠ delim) := by
  by_cases hnil : clean_fables_lines (readLines t) = []
  · have ho : outputLines t = [[]] := by
      unfold outputLines
      rw [hnil]
      rfl
    intro i h
    have hlen : (outputLines t).length = 1 := by rw [ho]; rfl
    have hi0 : i = 0 := by omega
    subst hi0
    have hget : (outputLines t).get ⟨0, h⟩ = [] := by
      rw [List.get_of_eq ho]
      rfl
    constructor
    · intro hx
      rw [hget] at hx
      exact absurd hx (by decide)
    · intro hx
      rw [hget] at hx
      exact absurd hx (by decide)
  · obtain ⟨hout, hGms, _⟩ := clean_bridge (clean_G t) hnil
    have hms : outputLines t = adjustEnds (clean_fables_lines (readLines t)) := hout
    have hH' : ∀ l ∈ readLines t, pyStrip (rstripNewline l) ≠ delim := by
      intro l hl
      rw [pyStrip_rstripNewline]
      exact hH l hl
    have hqw := foldl_QW (readLines t) hH' none [] List.chain'_nil (by simp) (by simp)
    have hq1 := QW_dropTrailingNil hqw.1 hqw.2.1 hqw.2.2
    have hq2 := QW_mapLast hq1.1 hq1.2.1 hq1.2.2
    have hq3 := QW_mapFirst hq2.1 hq2.2.1 hq2.2.2
    have hchain : List.Chain' Rq (outputLines t) := by
      rw [hms]
      exact hq3.1
    have hlast : (outputLines t).getLast? ≠ some delim := by
      rw [hms]
      exact hq3.2
    have hGout : G none (outputLines t) := by
      rw [hms]
      exact hGms
    intro i h
    constructor
    · intro hx
      obtain ⟨hzero, hpos⟩ := G_title_index_gen (outputLines t) none hGout i h hx
      by_cases hi0 : i = 0
      · subst hi0
        cases hzero rfl
      · have h0 : 0 < i := Nat.pos_of_ne_zero hi0
        exact ⟨h0, hpos h0⟩
    · intro hx
      obtain ⟨h1', hti⟩ := chain'_delim_index hchain hlast i h hx
      exact ⟨h1', hti, is_title_ne_delim hti⟩

/-- Witness for the amended delimiter-placement theorem: the one-title
input produces a delimiter line followed by the title line. -/
theorem delimiter_placement_witness :
    (is_title_line ((outputLines ('A' :: '\n' :: [])).get ⟨1, by decide⟩) = true →
        ∃ _ : 0 < 1, (outputLines ('A' :: '\n' :: [])).get ⟨1 - 1, by decide⟩ = delim) ∧
      ((outputLines ('A' :: '\n' :: [])).get ⟨1, by decide⟩ = delim →
        ∃ h1 : 1 + 1 < (outputLines ('A' :: '\n' :: [])).length,
          is_title_line ((outputLines ('A' :: '\n' :: [])).get ⟨1 + 1, h1⟩) = true ∧
          (outputLines ('A' :: '\n' :: [])).get ⟨1 + 1, h1⟩ ≠ delim) :=
  delimiter_placement ('A' :: '\n' :: []) (by decide) 1 (by decide)
